import Mathlib

/-!
Shallow embedding of the ASCII text-manipulation library `TextTools.h`
(repository cpp_ASCII).  Bytes are modelled as `Fin 256` (the C++ code
always indexes its tables through `static_cast<unsigned char>`), a
`std::string` as a `List Byte`, and each in-place mutation as a function
from the old buffer contents to the new ones.  The `std::unordered_map`
rule sets are modelled as association lists; where a claim depends on the
map's key uniqueness this appears as a `Nodup` hypothesis on the keys.
-/

/-- A byte value, as the C++ code sees it after `static_cast<unsigned char>`. -/
abbrev Byte := Fin 256

/-- `TextTools::LookupTable`, a `std::array<char, 256>` indexed by the byte value. -/
abbrev LookupTable := Byte → Byte

/-- `TextTools::CharModMap`, `std::unordered_map<char, std::optional<char>>`:
an association list from a byte to an optional replacement. -/
abbrev CharModMap := List (Byte × Option Byte)

/-- `TextTools::ReplacementMap`, `std::unordered_map<char, char>`. -/
abbrev ReplacementMap := List (Byte × Byte)

/-- `TextTools::Constants::REMOVAL_SENTINEL`, the character `'\0'`. -/
def REMOVAL_SENTINEL : Byte := 0

/-- A single array store `table[k] = v` on a `LookupTable`. -/
def setTable (t : LookupTable) (k v : Byte) : LookupTable :=
  fun b => if b = k then v else t b

/-- `detail::prepare_identity_table`: the table mapping every byte to itself. -/
def prepare_identity_table : LookupTable := fun b => b

/-- `detail::create_table_checked`: builds the replace-or-remove lookup table
from the rule map together with the identity flag. -/
def create_table_checked (rules : CharModMap) : LookupTable × Bool :=
  let lookup_table := prepare_identity_table
  if rules.isEmpty then
    (lookup_table, true)
  else
    (rules.foldl
      (fun t r =>
        match r.2 with
        | some a => setTable t r.1 a
        | none => setTable t r.1 REMOVAL_SENTINEL)
      lookup_table,
     false)

/-- The loop body of `detail::replace_and_remove`: scan the buffer once,
writing `lookup_table[c]` whenever it differs from the sentinel and
dropping the byte otherwise (the surviving bytes are exactly the bytes
present in the buffer after the final `resize`). -/
def rr_scan (lookup_table : LookupTable) : List Byte → List Byte
  | [] => []
  | c :: rest =>
    let replacement := lookup_table c
    if replacement ≠ REMOVAL_SENTINEL then
      replacement :: rr_scan lookup_table rest
    else
      rr_scan lookup_table rest

/-- `detail::replace_and_remove`: early-returns on an empty buffer or the
identity flag, otherwise runs the scan-and-compact pass. -/
def replace_and_remove (text : List Byte) (lookup_table : LookupTable)
    (is_identity : Bool) : List Byte :=
  if text.isEmpty || is_identity then text
  else rr_scan lookup_table text

/-- `detail::create_replacement_table`: identity table overwritten by the
pure-replacement map's entries. -/
def create_replacement_table (replacements : ReplacementMap) : LookupTable :=
  replacements.foldl (fun t r => setTable t r.1 r.2) prepare_identity_table

/-- `detail::replace_chars`: element-wise rewrite of the buffer through the
table; early-returns on an empty buffer. -/
def replace_chars (input_text : List Byte) (replacement_map : LookupTable) :
    List Byte :=
  if input_text.isEmpty then input_text
  else input_text.map replacement_map

/-- `TextTools::ascii_char_replace_remove_once`. -/
def ascii_char_replace_remove_once (text : List Byte) (rules : CharModMap) :
    List Byte :=
  let p := create_table_checked rules
  replace_and_remove text p.1 p.2

/-- `TextTools::ReusableASCIICharEditor`: the table and flag computed once
at construction. -/
structure ReusableASCIICharEditor where
  m_lookup_table : LookupTable
  m_is_identity : Bool

/-- The `ReusableASCIICharEditor(const CharModMap&)` constructor. -/
def ReusableASCIICharEditor.ofRules (rules : CharModMap) :
    ReusableASCIICharEditor :=
  let result := create_table_checked rules
  { m_lookup_table := result.1, m_is_identity := result.2 }

/-- `ReusableASCIICharEditor::apply`. -/
def ReusableASCIICharEditor.apply (e : ReusableASCIICharEditor)
    (text : List Byte) : List Byte :=
  replace_and_remove text e.m_lookup_table e.m_is_identity

/-- `TextTools::ascii_replace_once`. -/
def ascii_replace_once (text : List Byte) (replacements : ReplacementMap) :
    List Byte :=
  if replacements.isEmpty then text
  else replace_chars text (create_replacement_table replacements)

/-- `TextTools::ReusableCharReplacer`. -/
structure ReusableCharReplacer where
  m_is_empty : Bool
  m_replacement_table : LookupTable

/-- The `ReusableCharReplacer(const ReplacementMap&)` constructor. -/
def ReusableCharReplacer.ofMap (replacements : ReplacementMap) :
    ReusableCharReplacer :=
  { m_is_empty := replacements.isEmpty
    m_replacement_table := create_replacement_table replacements }

/-- `ReusableCharReplacer::apply`. -/
def ReusableCharReplacer.apply (r : ReusableCharReplacer)
    (text : List Byte) : List Byte :=
  if r.m_is_empty then text
  else replace_chars text r.m_replacement_table

/-- The compile-time `IS_TRIMMABLE` table of `TextTools::trim_all`:
space, tab, newline, carriage return, form feed, vertical tab and
backtick (0x60). -/
def IS_TRIMMABLE (b : Byte) : Bool :=
  b = 32 || b = 9 || b = 10 || b = 13 || b = 12 || b = 11 || b = 96

/-- The compacting loop of `TextTools::trim_all` over the range
`[first, last)`, with the `previous_was_trimmable` flag threaded through:
a trimmable byte emits one `' '` only when the flag was false, a
non-trimmable byte is copied verbatim. -/
def trim_scan : List Byte → Bool → List Byte
  | [], _ => []
  | c :: rest, previous_was_trimmable =>
    if IS_TRIMMABLE c then
      if !previous_was_trimmable then
        (32 : Byte) :: trim_scan rest true
      else
        trim_scan rest true
    else
      c :: trim_scan rest false

/-- The backward cursor move of `trim_all`: drop the trailing run of
trimmable bytes (the loop retreating `last` while the previous byte is
trimmable). -/
def rtrim (l : List Byte) : List Byte :=
  (l.reverse.dropWhile IS_TRIMMABLE).reverse

/-- `TextTools::trim_all`: empty-buffer early return, advance `first` over
leading trimmables (all-trimmable clears the buffer), retreat `last` over
trailing trimmables, then the compacting scan with final truncation. -/
def trim_all (input_text : List Byte) : List Byte :=
  if input_text.isEmpty then input_text
  else
    let first := input_text.dropWhile IS_TRIMMABLE
    if first.isEmpty then []
    else trim_scan (rtrim first) false

/-! Specification-side description of trimming: the buffer's maximal runs
of non-trimmable bytes, joined by single spaces. -/

/-- Auxiliary bound used for the recursion of `words`. -/
theorem length_dropWhile_le (p : Byte → Bool) (l : List Byte) :
    (l.dropWhile p).length ≤ l.length := by
  induction l with
  | nil => simp [List.dropWhile]
  | cons c rest ih =>
    by_cases h : p c
    · simp [List.dropWhile, h]
      omega
    · simp [List.dropWhile, h]

/-- The maximal runs of non-trimmable bytes of a buffer, in order
(the "words" of the spec's trim contract). -/
def words : List Byte → List (List Byte)
  | [] => []
  | c :: rest =>
    if IS_TRIMMABLE c then words rest
    else
      (c :: rest.takeWhile (fun b => !IS_TRIMMABLE b)) ::
        words (rest.dropWhile (fun b => !IS_TRIMMABLE b))
termination_by l => l.length
decreasing_by
  · simp
  · have := length_dropWhile_le (fun b => !IS_TRIMMABLE b) rest
    simp
    omega

/-- Join a list of words with single space bytes between them. -/
def joinWords : List (List Byte) → List Byte
  | [] => []
  | [w] => w
  | w :: ws => w ++ (32 : Byte) :: joinWords ws

/-! Helper lemmas about table construction and the scan-and-compact pass. -/

theorem setTable_same (t : LookupTable) (k v : Byte) : setTable t k v k = v := by
  simp [setTable]

theorem setTable_other (t : LookupTable) (k v b : Byte) (h : b ≠ k) :
    setTable t k v b = t b := by
  simp [setTable, h]

/-- A fold of `setTable` stores over a list never touches an index that is
not one of the written keys. -/
theorem foldTable_not_mem {α : Type} (f g : α → Byte) (l : List α)
    (t : LookupTable) (b : Byte) (hb : ∀ x ∈ l, f x ≠ b) :
    (l.foldl (fun acc x => setTable acc (f x) (g x)) t) b = t b := by
  induction l generalizing t with
  | nil => rfl
  | cons y ys ih =>
    have hy : f y ≠ b := hb y (List.mem_cons_self y ys)
    have hys : ∀ x ∈ ys, f x ≠ b := fun x hx => hb x (List.mem_cons_of_mem y hx)
    simp only [List.foldl_cons]
    rw [ih _ hys, setTable_other _ _ _ _ (fun hc => hy hc.symm)]

/-- With pairwise-distinct keys, a fold of `setTable` stores maps each
written key to its written value. -/
theorem foldTable_mem {α : Type} (f g : α → Byte) (l : List α)
    (t : LookupTable) (x : α) (hx : x ∈ l) (hnd : (l.map f).Nodup) :
    (l.foldl (fun acc x => setTable acc (f x) (g x)) t) (f x) = g x := by
  induction l generalizing t with
  | nil => cases hx
  | cons y ys ih =>
    simp only [List.map_cons, List.nodup_cons] at hnd
    rcases List.mem_cons.mp hx with hxy | hxs
    · subst hxy
      simp only [List.foldl_cons]
      have : ∀ z ∈ ys, f z ≠ f x := by
        intro z hz hc
        exact hnd.1 (hc ▸ List.mem_map_of_mem f hz)
      rw [foldTable_not_mem f g ys _ _ this, setTable_same]
    · simp only [List.foldl_cons]
      exact ih _ hxs hnd.2

/-- The fold inside `create_table_checked` written with `Option.getD`. -/
theorem ctc_fold_eq (rules : CharModMap) (t : LookupTable) :
    rules.foldl
      (fun t r =>
        match r.2 with
        | some a => setTable t r.1 a
        | none => setTable t r.1 REMOVAL_SENTINEL) t =
    rules.foldl (fun t r => setTable t r.1 (r.2.getD REMOVAL_SENTINEL)) t := by
  apply List.foldl_ext
  intro acc r _
  cases r.2 <;> rfl

theorem create_table_checked_snd (rules : CharModMap) :
    (create_table_checked rules).2 = rules.isEmpty := by
  by_cases h : rules.isEmpty <;> simp [create_table_checked, h]

/-- Every rule with distinct keys lands in the table, as its replacement
byte or as the sentinel. -/
theorem create_table_checked_mem (rules : CharModMap) (k : Byte)
    (v : Option Byte) (h : (k, v) ∈ rules)
    (hnd : (rules.map Prod.fst).Nodup) :
    (create_table_checked rules).1 k = v.getD REMOVAL_SENTINEL := by
  have hne : rules.isEmpty = false := by
    cases rules with
    | nil => cases h
    | cons a l => rfl
  simp only [create_table_checked, hne, Bool.false_eq_true, if_false]
  rw [ctc_fold_eq]
  exact foldTable_mem Prod.fst (fun r => r.2.getD REMOVAL_SENTINEL) rules _
    (k, v) h hnd

/-- A byte no rule is keyed on keeps its identity entry. -/
theorem create_table_checked_not_mem (rules : CharModMap) (b : Byte)
    (h : ∀ p ∈ rules, p.1 ≠ b) :
    (create_table_checked rules).1 b = b := by
  by_cases he : rules.isEmpty
  · simp [create_table_checked, he, prepare_identity_table]
  · simp only [create_table_checked, he, Bool.false_eq_true, if_false]
    rw [ctc_fold_eq]
    exact foldTable_not_mem Prod.fst (fun r => r.2.getD REMOVAL_SENTINEL)
      rules _ b h

theorem create_replacement_table_mem (replacements : ReplacementMap)
    (k v : Byte) (h : (k, v) ∈ replacements)
    (hnd : (replacements.map Prod.fst).Nodup) :
    create_replacement_table replacements k = v :=
  foldTable_mem Prod.fst Prod.snd replacements _ (k, v) h hnd

theorem create_replacement_table_not_mem (replacements : ReplacementMap)
    (b : Byte) (h : ∀ p ∈ replacements, p.1 ≠ b) :
    create_replacement_table replacements b = b :=
  foldTable_not_mem Prod.fst Prod.snd replacements _ b h

/-- The scan-and-compact loop is a filter-map over the buffer. -/
theorem rr_scan_eq_filterMap (lookup_table : LookupTable) (l : List Byte) :
    rr_scan lookup_table l =
      l.filterMap (fun b =>
        if lookup_table b = REMOVAL_SENTINEL then none
        else some (lookup_table b)) := by
  induction l with
  | nil => rfl
  | cons c rest ih =>
    by_cases h : lookup_table c = REMOVAL_SENTINEL <;>
      simp [rr_scan, h, List.filterMap_cons, ih]

/-- `replace_and_remove` with the identity flag down is a filter-map. -/
theorem replace_and_remove_false (text : List Byte) (lookup_table : LookupTable) :
    replace_and_remove text lookup_table false =
      text.filterMap (fun b =>
        if lookup_table b = REMOVAL_SENTINEL then none
        else some (lookup_table b)) := by
  cases text with
  | nil => rfl
  | cons c rest =>
    simp only [replace_and_remove, List.isEmpty_cons, Bool.or_false,
      Bool.false_eq_true, if_false]
    exact rr_scan_eq_filterMap lookup_table (c :: rest)

/-- The one-shot replace-or-remove transform on a non-empty rule list is
the filter-map through the built table. -/
theorem once_eq_filterMap (rules : CharModMap) (hne : rules ≠ [])
    (text : List Byte) :
    ascii_char_replace_remove_once text rules =
      text.filterMap (fun b =>
        if (create_table_checked rules).1 b = REMOVAL_SENTINEL then none
        else some ((create_table_checked rules).1 b)) := by
  have h2 : (create_table_checked rules).2 = false := by
    rw [create_table_checked_snd]
    cases rules with
    | nil => exact absurd rfl hne
    | cons a l => rfl
  simp only [ascii_char_replace_remove_once]
  rw [h2]
  exact replace_and_remove_false text (create_table_checked rules).1

/-- Dropping bytes the filter-map already discards does not change it. -/
theorem filterMap_filter_of_none {α β : Type} [DecidableEq α]
    (f : α → Option β) (b : α) (hb : f b = none) (l : List α) :
    (l.filter (fun c => c ≠ b)).filterMap f = l.filterMap f := by
  induction l with
  | nil => rfl
  | cons c rest ih =>
    by_cases hc : c = b
    · subst hc
      have h1 : List.filter (fun x => x ≠ c) (c :: rest)
          = List.filter (fun x => x ≠ c) rest := by
        simp [List.filter_cons]
      rw [h1, ih, List.filterMap_cons, hb]
    · have h1 : List.filter (fun x => x ≠ b) (c :: rest)
          = c :: List.filter (fun x => x ≠ b) rest := by
        simp [List.filter_cons, hc]
      rw [h1, List.filterMap_cons, List.filterMap_cons, ih]

/-! Helper lemmas about `words`, `joinWords` and the trim pass. -/

theorem words_nil : words [] = [] := by
  simp [words]

theorem words_cons_trimmable (c : Byte) (r : List Byte)
    (h : IS_TRIMMABLE c = true) : words (c :: r) = words r := by
  rw [words]
  simp [h]

theorem words_cons_not_trimmable (c : Byte) (r : List Byte)
    (h : IS_TRIMMABLE c = false) :
    words (c :: r) =
      (c :: r.takeWhile (fun b => !IS_TRIMMABLE b)) ::
        words (r.dropWhile (fun b => !IS_TRIMMABLE b)) := by
  rw [words]
  simp [h]

theorem joinWords_nil : joinWords [] = [] := rfl

theorem joinWords_single (w : List Byte) : joinWords [w] = w := rfl

theorem joinWords_cons (w w2 : List Byte) (ws : List (List Byte)) :
    joinWords (w :: w2 :: ws) = w ++ (32 : Byte) :: joinWords (w2 :: ws) := rfl

/-- Appending an all-trimmable suffix does not change where the leading
non-trimmable run stops. -/
theorem takeWhile_nt_append (r s : List Byte)
    (hs : ∀ x ∈ s, IS_TRIMMABLE x = true) :
    (r ++ s).takeWhile (fun b => !IS_TRIMMABLE b) =
      r.takeWhile (fun b => !IS_TRIMMABLE b) ∧
    (r ++ s).dropWhile (fun b => !IS_TRIMMABLE b) =
      r.dropWhile (fun b => !IS_TRIMMABLE b) ++ s := by
  induction r with
  | nil =>
    cases s with
    | nil => simp
    | cons t s2 =>
      have ht : IS_TRIMMABLE t = true := hs t (List.mem_cons_self t s2)
      simp [List.takeWhile, List.dropWhile, ht]
  | cons c r2 ih =>
    by_cases hc : IS_TRIMMABLE c
    · simp [List.takeWhile, List.dropWhile, hc, ih.1, ih.2]
    · simp [List.takeWhile, List.dropWhile, hc, ih.1, ih.2]

/-- A run of non-trimmable bytes followed by a trimmable byte is exactly
the leading word. -/
theorem takeWhile_word_sep (w : List Byte) (t : Byte) (s : List Byte)
    (hw : ∀ x ∈ w, IS_TRIMMABLE x = false) (ht : IS_TRIMMABLE t = true) :
    (w ++ t :: s).takeWhile (fun b => !IS_TRIMMABLE b) = w ∧
    (w ++ t :: s).dropWhile (fun b => !IS_TRIMMABLE b) = t :: s := by
  induction w with
  | nil => simp [List.takeWhile, List.dropWhile, ht]
  | cons c w2 ih =>
    have hc : IS_TRIMMABLE c = false := hw c (List.mem_cons_self c w2)
    have ihw : ∀ x ∈ w2, IS_TRIMMABLE x = false :=
      fun x hx => hw x (List.mem_cons_of_mem c hx)
    have := ih ihw
    simp [List.takeWhile, List.dropWhile, hc, this.1, this.2]

theorem words_all_trimmable (l : List Byte)
    (h : ∀ x ∈ l, IS_TRIMMABLE x = true) : words l = [] := by
  induction l with
  | nil => exact words_nil
  | cons c r ih =>
    rw [words_cons_trimmable c r (h c (List.mem_cons_self c r))]
    exact ih fun x hx => h x (List.mem_cons_of_mem c hx)

/-- Dropping the leading trimmable run does not change the words. -/
theorem words_dropWhile_trimmable (l : List Byte) :
    words (l.dropWhile IS_TRIMMABLE) = words l := by
  induction l with
  | nil => rfl
  | cons c r ih =>
    by_cases hc : IS_TRIMMABLE c
    · rw [words_cons_trimmable c r hc]
      rw [show (c :: r).dropWhile IS_TRIMMABLE = r.dropWhile IS_TRIMMABLE by
        simp [List.dropWhile, hc]]
      exact ih
    · rw [show (c :: r).dropWhile IS_TRIMMABLE = c :: r by
        simp [List.dropWhile, hc]]

/-- Appending an all-trimmable suffix does not change the words. -/
theorem words_append_trimmable : ∀ (n : Nat) (m : List Byte),
    m.length ≤ n → ∀ s : List Byte, (∀ x ∈ s, IS_TRIMMABLE x = true) →
    words (m ++ s) = words m := by
  intro n
  induction n with
  | zero =>
    intro m hm s hs
    have : m = [] := List.length_eq_zero.mp (Nat.le_zero.mp hm)
    subst this
    rw [List.nil_append, words_nil]
    exact words_all_trimmable s hs
  | succ n ih =>
    intro m hm s hs
    cases m with
    | nil =>
      rw [List.nil_append, words_nil]
      exact words_all_trimmable s hs
    | cons c r =>
      have hr : r.length ≤ n := by
        simp only [List.length_cons] at hm
        omega
      by_cases hc : IS_TRIMMABLE c
      · rw [List.cons_append, words_cons_trimmable c (r ++ s) hc,
          words_cons_trimmable c r hc]
        exact ih r hr s hs
      · rw [List.cons_append,
          words_cons_not_trimmable c (r ++ s) (by simp [hc]),
          words_cons_not_trimmable c r (by simp [hc]),
          (takeWhile_nt_append r s hs).1, (takeWhile_nt_append r s hs).2]
        have hd : (r.dropWhile (fun b => !IS_TRIMMABLE b)).length ≤ n :=
          le_trans (length_dropWhile_le _ r) hr
        rw [ih _ hd s hs]

theorem trim_scan_nil (b : Bool) : trim_scan [] b = [] := rfl

theorem trim_scan_cons_trimmable_true (c : Byte) (r : List Byte)
    (h : IS_TRIMMABLE c = true) :
    trim_scan (c :: r) true = trim_scan r true := by
  simp [trim_scan, h]

theorem trim_scan_cons_trimmable_false (c : Byte) (r : List Byte)
    (h : IS_TRIMMABLE c = true) :
    trim_scan (c :: r) false = (32 : Byte) :: trim_scan r true := by
  simp [trim_scan, h]

theorem trim_scan_cons_not_trimmable (c : Byte) (r : List Byte) (b : Bool)
    (h : IS_TRIMMABLE c = false) :
    trim_scan (c :: r) b = c :: trim_scan r false := by
  cases b <;> simp [trim_scan, h]

/-- What `dropWhile` leaves starts with a byte failing the predicate. -/
theorem head?_dropWhile_false (p : Byte → Bool) (l : List Byte) (x : Byte)
    (h : (l.dropWhile p).head? = some x) : p x = false := by
  induction l with
  | nil => simp [List.dropWhile] at h
  | cons c r ih =>
    by_cases hc : p c = true
    · rw [show (c :: r).dropWhile p = r.dropWhile p by
        simp [List.dropWhile, hc]] at h
      exact ih h
    · have hc2 : p c = false := by
        simp at hc
        exact hc
      rw [show (c :: r).dropWhile p = c :: r by
        simp [List.dropWhile, hc2]] at h
      simp only [List.head?_cons, Option.some.injEq] at h
      subst h
      exact hc2

/-- A non-empty buffer whose last byte is not trimmable has at least one word. -/
theorem words_ne_nil : ∀ (n : Nat) (l : List Byte), l.length ≤ n → l ≠ [] →
    (∀ x, l.getLast? = some x → IS_TRIMMABLE x = false) → words l ≠ [] := by
  intro n
  induction n with
  | zero =>
    intro l hl hne _
    cases l with
    | nil => exact absurd rfl hne
    | cons c r => simp at hl
  | succ n ih =>
    intro l hl hne hlast
    cases l with
    | nil => exact absurd rfl hne
    | cons c r =>
      by_cases hc : IS_TRIMMABLE c = true
      · cases r with
        | nil =>
          have := hlast c rfl
          rw [this] at hc
          cases hc
        | cons c2 r2 =>
          rw [words_cons_trimmable c _ hc]
          refine ih (c2 :: r2) ?_ (by simp) ?_
          · simp only [List.length_cons] at hl ⊢
            omega
          · intro x hx
            exact hlast x (by rw [List.getLast?_cons_cons]; exact hx)
      · simp at hc
        rw [words_cons_not_trimmable c r hc]
        simp

/-- Core correctness of the compacting loop of `trim_all`, for buffers with
no trailing trimmable run: with the flag up it produces the words joined by
single spaces; with the flag down it may first emit one space if the buffer
starts with a trimmable byte. -/
theorem trim_scan_spec : ∀ (n : Nat) (l : List Byte), l.length ≤ n →
    (∀ x, l.getLast? = some x → IS_TRIMMABLE x = false) →
    (trim_scan l true = joinWords (words l)) ∧
    (∀ c r, l = c :: r → IS_TRIMMABLE c = true →
      trim_scan l false = (32 : Byte) :: joinWords (words l)) ∧
    (∀ c r, l = c :: r → IS_TRIMMABLE c = false →
      trim_scan l false = joinWords (words l)) := by
  intro n
  induction n with
  | zero =>
    intro l hl _
    have : l = [] := List.length_eq_zero.mp (Nat.le_zero.mp hl)
    subst this
    refine ⟨by rw [trim_scan_nil, words_nil, joinWords_nil], ?_, ?_⟩ <;>
      intro c r hcr _ <;> cases hcr
  | succ n ih =>
    intro l hl hlast
    cases l with
    | nil =>
      refine ⟨by rw [trim_scan_nil, words_nil, joinWords_nil], ?_, ?_⟩ <;>
        intro c r hcr _ <;> cases hcr
    | cons c r =>
      have hrlen : r.length ≤ n := by
        simp only [List.length_cons] at hl
        omega
      by_cases hc : IS_TRIMMABLE c = true
      · -- trimmable head: the last byte is not trimmable, so r is non-empty
        cases r with
        | nil =>
          have := hlast c rfl
          rw [this] at hc
          cases hc
        | cons c2 r2 =>
          have hlast2 : ∀ x, (c2 :: r2).getLast? = some x →
              IS_TRIMMABLE x = false := by
            intro x hx
            exact hlast x (by rw [List.getLast?_cons_cons]; exact hx)
          have ihr := ih (c2 :: r2) hrlen hlast2
          have hw : words (c :: c2 :: r2) = words (c2 :: r2) :=
            words_cons_trimmable c _ hc
          refine ⟨?_, ?_, ?_⟩
          · rw [trim_scan_cons_trimmable_true c _ hc, hw]
            exact ihr.1
          · intro c3 r3 hcr _
            rw [trim_scan_cons_trimmable_false c _ hc, hw]
            rw [ihr.1]
          · intro c3 r3 hcr hc3
            cases hcr
            rw [hc3] at hc
            cases hc
      · simp at hc
        -- non-trimmable head: both flags copy the head and clear the flag
        have hmain : c :: trim_scan r false = joinWords (words (c :: r)) := by
          rw [words_cons_not_trimmable c r hc]
          cases r with
          | nil =>
            rw [trim_scan_nil]
            simp only [List.takeWhile_nil, List.dropWhile_nil, words_nil,
              joinWords_single]
          | cons c2 r2 =>
            have hlast2 : ∀ x, (c2 :: r2).getLast? = some x →
                IS_TRIMMABLE x = false := by
              intro x hx
              exact hlast x (by rw [List.getLast?_cons_cons]; exact hx)
            have ihr := ih (c2 :: r2) hrlen hlast2
            by_cases hc2 : IS_TRIMMABLE c2 = true
            · -- the word is just [c]; a space follows
              have htw : (c2 :: r2).takeWhile (fun b => !IS_TRIMMABLE b)
                  = [] := by
                simp [List.takeWhile, hc2]
              have hdw : (c2 :: r2).dropWhile (fun b => !IS_TRIMMABLE b)
                  = c2 :: r2 := by
                simp [List.dropWhile, hc2]
              have hwne : words (c2 :: r2) ≠ [] :=
                words_ne_nil n (c2 :: r2) hrlen (by simp) hlast2
              have hF : trim_scan (c2 :: r2) false =
                  (32 : Byte) :: joinWords (words (c2 :: r2)) :=
                ihr.2.1 c2 r2 rfl hc2
              rw [htw, hdw, hF]
              cases hws : words (c2 :: r2) with
              | nil => exact absurd hws hwne
              | cons w ws => rw [joinWords_cons]; rfl
            · simp at hc2
              -- the word continues through c2
              have htw : (c2 :: r2).takeWhile (fun b => !IS_TRIMMABLE b)
                  = c2 :: r2.takeWhile (fun b => !IS_TRIMMABLE b) := by
                simp [List.takeWhile, hc2]
              have hdw : (c2 :: r2).dropWhile (fun b => !IS_TRIMMABLE b)
                  = r2.dropWhile (fun b => !IS_TRIMMABLE b) := by
                simp [List.dropWhile, hc2]
              have hF : trim_scan (c2 :: r2) false =
                  joinWords (words (c2 :: r2)) :=
                ihr.2.2 c2 r2 rfl hc2
              rw [hF, words_cons_not_trimmable c2 r2 hc2, htw, hdw]
              cases hws : words (r2.dropWhile (fun b => !IS_TRIMMABLE b)) with
              | nil => rfl
              | cons w ws => rw [joinWords_cons, joinWords_cons]; rfl
        refine ⟨?_, ?_, ?_⟩
        · rw [trim_scan_cons_not_trimmable c r true hc]
          exact hmain
        · intro c3 r3 hcr hc3
          cases hcr
          rw [hc3] at hc
          cases hc
        · intro c3 r3 hcr _
          rw [trim_scan_cons_not_trimmable c r false hc]
          exact hmain

/-- Splitting off the trailing trimmable run. -/
theorem rtrim_append (l : List Byte) :
    rtrim l ++ (l.reverse.takeWhile IS_TRIMMABLE).reverse = l := by
  unfold rtrim
  rw [← List.reverse_append, List.takeWhile_append_dropWhile,
    List.reverse_reverse]

theorem rtrim_suffix_trimmable (l : List Byte) :
    ∀ x ∈ (l.reverse.takeWhile IS_TRIMMABLE).reverse,
      IS_TRIMMABLE x = true := by
  intro x hx
  rw [List.mem_reverse] at hx
  exact List.mem_takeWhile_imp hx

theorem rtrim_getLast_not_trimmable (l : List Byte) (x : Byte)
    (h : (rtrim l).getLast? = some x) : IS_TRIMMABLE x = false := by
  unfold rtrim at h
  rw [List.getLast?_reverse] at h
  exact head?_dropWhile_false IS_TRIMMABLE l.reverse x h

/-- `trim_all` produces exactly the buffer's words joined by single spaces. -/
theorem trim_all_eq_joinWords (l : List Byte) :
    trim_all l = joinWords (words l) := by
  cases hl : l with
  | nil => rw [words_nil]; rfl
  | cons a l0 =>
    rw [show trim_all (a :: l0) =
        (if ((a :: l0).dropWhile IS_TRIMMABLE).isEmpty = true then []
         else trim_scan (rtrim ((a :: l0).dropWhile IS_TRIMMABLE)) false) by
      simp [trim_all]]
    have hwl : words ((a :: l0).dropWhile IS_TRIMMABLE) = words (a :: l0) :=
      words_dropWhile_trimmable (a :: l0)
    by_cases hf : ((a :: l0).dropWhile IS_TRIMMABLE).isEmpty = true
    · rw [if_pos hf]
      rw [List.isEmpty_iff] at hf
      rw [← hwl, hf, words_nil, joinWords_nil]
    · rw [if_neg hf]
      have hfne : (a :: l0).dropWhile IS_TRIMMABLE ≠ [] := by
        intro h0
        rw [h0] at hf
        exact hf rfl
      obtain ⟨c, r, hcr⟩ : ∃ c r, (a :: l0).dropWhile IS_TRIMMABLE = c :: r := by
        cases hfl : (a :: l0).dropWhile IS_TRIMMABLE with
        | nil => exact absurd hfl hfne
        | cons c r => exact ⟨c, r, rfl⟩
      have hc : IS_TRIMMABLE c = false :=
        head?_dropWhile_false IS_TRIMMABLE (a :: l0) c (by rw [hcr]; rfl)
      have hsplit := rtrim_append ((a :: l0).dropWhile IS_TRIMMABLE)
      have hstrim := rtrim_suffix_trimmable ((a :: l0).dropWhile IS_TRIMMABLE)
      have hrne : rtrim ((a :: l0).dropWhile IS_TRIMMABLE) ≠ [] := by
        intro h0
        rw [h0, List.nil_append] at hsplit
        have hcmem : c ∈ (a :: l0).dropWhile IS_TRIMMABLE := by
          rw [hcr]
          exact List.mem_cons_self c r
        rw [← hsplit] at hcmem
        have hcontra := hstrim c hcmem
        rw [hc] at hcontra
        cases hcontra
      obtain ⟨y, ys, hyy⟩ :
          ∃ y ys, rtrim ((a :: l0).dropWhile IS_TRIMMABLE) = y :: ys := by
        cases hfl : rtrim ((a :: l0).dropWhile IS_TRIMMABLE) with
        | nil => exact absurd hfl hrne
        | cons y ys => exact ⟨y, ys, rfl⟩
      have hyc : y = c := by
        rw [hyy, hcr] at hsplit
        simp only [List.cons_append] at hsplit
        injection hsplit with h1 h2
      have hlast : ∀ x,
          (rtrim ((a :: l0).dropWhile IS_TRIMMABLE)).getLast? = some x →
          IS_TRIMMABLE x = false :=
        fun x hx => rtrim_getLast_not_trimmable _ x hx
      have hspec :=
        (trim_scan_spec (rtrim ((a :: l0).dropWhile IS_TRIMMABLE)).length _
          le_rfl hlast).2.2 y ys hyy (by rw [hyc]; exact hc)
      rw [hspec]
      have hws : words (rtrim ((a :: l0).dropWhile IS_TRIMMABLE)) =
          words ((a :: l0).dropWhile IS_TRIMMABLE) := by
        conv_rhs => rw [← hsplit]
        rw [words_append_trimmable
          (rtrim ((a :: l0).dropWhile IS_TRIMMABLE)).length _ le_rfl _ hstrim]
      rw [hws, hwl]

/-- Every word is non-empty and contains no trimmable byte. -/
theorem words_good : ∀ (n : Nat) (l : List Byte), l.length ≤ n →
    ∀ w ∈ words l, w ≠ [] ∧ ∀ x ∈ w, IS_TRIMMABLE x = false := by
  intro n
  induction n with
  | zero =>
    intro l hl w hw
    have : l = [] := List.length_eq_zero.mp (Nat.le_zero.mp hl)
    subst this
    rw [words_nil] at hw
    cases hw
  | succ n ih =>
    intro l hl w hw
    cases l with
    | nil =>
      rw [words_nil] at hw
      cases hw
    | cons c r =>
      have hrlen : r.length ≤ n := by
        simp only [List.length_cons] at hl
        omega
      by_cases hc : IS_TRIMMABLE c = true
      · rw [words_cons_trimmable c r hc] at hw
        exact ih r hrlen w hw
      · simp at hc
        rw [words_cons_not_trimmable c r hc] at hw
        rcases List.mem_cons.mp hw with hw1 | hw2
        · subst hw1
          refine ⟨by simp, ?_⟩
          intro x hx
          rcases List.mem_cons.mp hx with hx1 | hx2
          · subst hx1
            exact hc
          · have := List.mem_takeWhile_imp hx2
            simp at this
            exact this
        · exact ih (r.dropWhile (fun b => !IS_TRIMMABLE b))
            (le_trans (length_dropWhile_le _ r) hrlen) w hw2

/-- A non-empty run of non-trimmable bytes is a single word. -/
theorem words_single_run (c : Byte) (r : List Byte)
    (h : ∀ x ∈ c :: r, IS_TRIMMABLE x = false) : words (c :: r) = [c :: r] := by
  rw [words_cons_not_trimmable c r (h c (List.mem_cons_self c r))]
  have htw : r.takeWhile (fun b => !IS_TRIMMABLE b) = r :=
    List.takeWhile_eq_self_iff.mpr
      (fun x hx => by simp [h x (List.mem_cons_of_mem c hx)])
  have hdw : r.dropWhile (fun b => !IS_TRIMMABLE b) = [] :=
    List.dropWhile_eq_nil_iff.mpr
      (fun x hx => by simp [h x (List.mem_cons_of_mem c hx)])
  rw [htw, hdw, words_nil]

/-- Splitting the joined words recovers exactly the same words. -/
theorem words_joinWords : ∀ ws : List (List Byte),
    (∀ w ∈ ws, w ≠ [] ∧ ∀ x ∈ w, IS_TRIMMABLE x = false) →
    words (joinWords ws) = ws := by
  intro ws
  induction ws with
  | nil =>
    intro _
    rw [joinWords_nil, words_nil]
  | cons w ws2 ih =>
    intro hgood
    have hw := hgood w (List.mem_cons_self w ws2)
    obtain ⟨c, r, hcr⟩ : ∃ c r, w = c :: r := by
      cases hwc : w with
      | nil => exact absurd hwc hw.1
      | cons c r => exact ⟨c, r, rfl⟩
    cases ws2 with
    | nil =>
      rw [joinWords_single, hcr]
      rw [words_single_run c r (hcr ▸ hw.2), ← hcr]
    | cons w2 ws3 =>
      rw [joinWords_cons, hcr, List.cons_append]
      have hsep := takeWhile_word_sep r (32 : Byte) (joinWords (w2 :: ws3))
        (fun x hx => hw.2 x (hcr ▸ List.mem_cons_of_mem c hx)) (by rfl)
      rw [words_cons_not_trimmable c _
        (hw.2 c (hcr ▸ List.mem_cons_self c r)), hsep.1, hsep.2]
      rw [words_cons_trimmable (32 : Byte) _ (by rfl)]
      rw [ih (fun x hx => hgood x (List.mem_cons_of_mem w hx))]

/-! Length bounds for the three transforms. -/

theorem rr_scan_length_le (lookup_table : LookupTable) (l : List Byte) :
    (rr_scan lookup_table l).length ≤ l.length := by
  induction l with
  | nil => simp [rr_scan]
  | cons c rest ih =>
    by_cases h : lookup_table c = REMOVAL_SENTINEL <;>
      simp [rr_scan, h, List.length_cons] <;> omega

theorem replace_and_remove_length_le (text : List Byte)
    (lookup_table : LookupTable) (is_identity : Bool) :
    (replace_and_remove text lookup_table is_identity).length ≤ text.length := by
  unfold replace_and_remove
  by_cases h : (text.isEmpty || is_identity) = true
  · rw [if_pos h]
  · rw [if_neg h]
    exact rr_scan_length_le lookup_table text

theorem trim_scan_length_le : ∀ (l : List Byte) (b : Bool),
    (trim_scan l b).length ≤ l.length := by
  intro l
  induction l with
  | nil => intro b; simp [trim_scan]
  | cons c rest ih =>
    intro b
    by_cases hc : IS_TRIMMABLE c = true
    · cases b with
      | false =>
        rw [trim_scan_cons_trimmable_false c rest hc]
        have := ih true
        simp only [List.length_cons]
        omega
      | true =>
        rw [trim_scan_cons_trimmable_true c rest hc]
        have := ih true
        simp only [List.length_cons]
        omega
    · simp at hc
      rw [trim_scan_cons_not_trimmable c rest b hc]
      have := ih false
      simp only [List.length_cons]
      omega

theorem rtrim_length_le (l : List Byte) : (rtrim l).length ≤ l.length := by
  unfold rtrim
  rw [List.length_reverse]
  calc (l.reverse.dropWhile IS_TRIMMABLE).length
      ≤ l.reverse.length := length_dropWhile_le IS_TRIMMABLE l.reverse
    _ = l.length := List.length_reverse l

theorem trim_all_length_le (input_text : List Byte) :
    (trim_all input_text).length ≤ input_text.length := by
  unfold trim_all
  by_cases h1 : input_text.isEmpty = true
  · rw [if_pos h1]
  · rw [if_neg h1]
    simp only
    by_cases h2 : (input_text.dropWhile IS_TRIMMABLE).isEmpty = true
    · rw [if_pos h2]
      simp
    · rw [if_neg h2]
      calc (trim_scan (rtrim (input_text.dropWhile IS_TRIMMABLE)) false).length
          ≤ (rtrim (input_text.dropWhile IS_TRIMMABLE)).length :=
            trim_scan_length_le _ false
        _ ≤ (input_text.dropWhile IS_TRIMMABLE).length :=
            rtrim_length_le _
        _ ≤ input_text.length := length_dropWhile_le IS_TRIMMABLE input_text

theorem replace_chars_length (input_text : List Byte)
    (replacement_map : LookupTable) :
    (replace_chars input_text replacement_map).length = input_text.length := by
  unfold replace_chars
  by_cases h : input_text.isEmpty = true
  · rw [if_pos h]
  · rw [if_neg h]
    exact List.length_map input_text replacement_map

theorem replace_chars_getElem (input_text : List Byte)
    (replacement_map : LookupTable) (i : Nat) :
    (replace_chars input_text replacement_map)[i]? =
      (input_text[i]?).map replacement_map := by
  unfold replace_chars
  cases input_text with
  | nil => simp
  | cons c rest =>
    rw [if_neg (by simp)]
    exact List.getElem?_map replacement_map (c :: rest) i

/-! The claims. -/

/-- C1: Scan-and-compact correctness: with `isIdentity = false`,
`replace_and_remove` leaves the buffer equal to the in-order sequence of
mapped bytes `table[b]` over the original bytes, keeping exactly those
whose mapped value is not the sentinel `0x00`, and the buffer's length is
the number of bytes kept — a filter-map over the original content, order
preserved. -/
theorem claim_scan_compact_filterMap (text : List Byte)
    (lookup_table : LookupTable) :
    replace_and_remove text lookup_table false =
      text.filterMap (fun b =>
        if lookup_table b = REMOVAL_SENTINEL then none
        else some (lookup_table b)) :=
  replace_and_remove_false text lookup_table

/-- C2: Table builder (replace-or-remove): an empty rule set yields the
identity table with `isIdentity = true`; a non-empty rule set yields
`isIdentity = false` and a table that is the identity overwritten with
`table[byte] = replacement` for replacement rules and `table[byte] = 0x00`
for removal rules. -/
theorem claim_table_builder_replace_remove :
    ((∀ b : Byte, (create_table_checked []).1 b = b) ∧
      (create_table_checked []).2 = true) ∧
    (∀ rules : CharModMap, rules ≠ [] → (rules.map Prod.fst).Nodup →
      (create_table_checked rules).2 = false ∧
      (∀ k r : Byte, (k, some r) ∈ rules →
        (create_table_checked rules).1 k = r) ∧
      (∀ k : Byte, (k, none) ∈ rules →
        (create_table_checked rules).1 k = REMOVAL_SENTINEL) ∧
      (∀ b : Byte, (∀ p ∈ rules, p.1 ≠ b) →
        (create_table_checked rules).1 b = b)) := by
  constructor
  · exact ⟨fun b => rfl, rfl⟩
  · intro rules hne hnd
    have h2 : (create_table_checked rules).2 = false := by
      rw [create_table_checked_snd]
      cases rules with
      | nil => exact absurd rfl hne
      | cons a l => rfl
    refine ⟨h2, ?_, ?_, ?_⟩
    · intro k r h
      exact create_table_checked_mem rules k (some r) h hnd
    · intro k h
      exact create_table_checked_mem rules k none h hnd
    · intro b h
      exact create_table_checked_not_mem rules b h

theorem claim_table_builder_replace_remove_witness :
    (create_table_checked [((45 : Byte), none), ((49 : Byte), some 33)]).2 =
      false ∧
    (create_table_checked [((45 : Byte), none), ((49 : Byte), some 33)]).1 49 =
      33 ∧
    (create_table_checked [((45 : Byte), none), ((49 : Byte), some 33)]).1 45 =
      REMOVAL_SENTINEL ∧
    (create_table_checked [((45 : Byte), none), ((49 : Byte), some 33)]).1 97 =
      97 := by
  have h97 : ∀ p ∈ ([((45 : Byte), none), ((49 : Byte), some 33)] :
      CharModMap), p.1 ≠ (97 : Byte) := by
    intro p hp
    rcases List.mem_cons.mp hp with h1 | hp2
    · subst h1
      decide
    rcases List.mem_cons.mp hp2 with h1 | hp3
    · subst h1
      decide
    · cases hp3
  have h := claim_table_builder_replace_remove.2
    [((45 : Byte), none), ((49 : Byte), some 33)] (by decide) (by decide)
  exact ⟨h.1, h.2.1 49 33 (by decide), h.2.2.1 45 (by decide),
    h.2.2.2 97 h97⟩

/-- C3: Trim contract: `trim_all` deletes all leading and trailing bytes of
the fixed trimmable set (space, tab, newline, carriage return, form feed,
vertical tab and the designated backtick byte 0x60), replaces every maximal
interior run of trimmable bytes by exactly one space 0x20, keeps all
non-trimmable bytes unchanged and in order — equivalently, the result is
the buffer's maximal non-trimmable runs joined by single spaces — and an
all-trimmable buffer becomes empty. -/
theorem claim_trim_contract :
    IS_TRIMMABLE 96 = true ∧
    (∀ l : List Byte, trim_all l = joinWords (words l)) ∧
    (∀ l : List Byte, (∀ x ∈ l, IS_TRIMMABLE x = true) → trim_all l = []) := by
  refine ⟨rfl, trim_all_eq_joinWords, ?_⟩
  intro l h
  rw [trim_all_eq_joinWords l, words_all_trimmable l h, joinWords_nil]

theorem claim_trim_contract_witness :
    trim_all [(9 : Byte), 9, 9] = [] :=
  claim_trim_contract.2.2 [(9 : Byte), 9, 9] (by simp [IS_TRIMMABLE])

/-- C4: Sentinel ambiguity: a rule replacing byte `b` with the sentinel 0x00
as its replacement makes the replace-or-remove transform (the one-shot
function, and equally the reusable editor) drop every occurrence of `b`
instead of replacing it: the result equals the result on the buffer with
all occurrences of `b` removed beforehand. -/
theorem claim_sentinel_replacement_ambiguity (rules : CharModMap) (b : Byte)
    (text : List Byte) (hmem : (b, some REMOVAL_SENTINEL) ∈ rules)
    (hnd : (rules.map Prod.fst).Nodup) :
    ascii_char_replace_remove_once text rules =
      ascii_char_replace_remove_once (text.filter (fun c => c ≠ b)) rules ∧
    (ReusableASCIICharEditor.ofRules rules).apply text =
      ascii_char_replace_remove_once text rules := by
  have hne : rules ≠ [] := by
    intro h0
    rw [h0] at hmem
    cases hmem
  have htb : (create_table_checked rules).1 b = REMOVAL_SENTINEL :=
    create_table_checked_mem rules b (some REMOVAL_SENTINEL) hmem hnd
  constructor
  · rw [once_eq_filterMap rules hne text, once_eq_filterMap rules hne
      (text.filter (fun c => c ≠ b))]
    exact (filterMap_filter_of_none _ b (by simp [htb]) text).symm
  · rfl

theorem claim_sentinel_replacement_ambiguity_witness :
    (ascii_char_replace_remove_once [97, 45, 98]
        [((45 : Byte), some REMOVAL_SENTINEL)] =
      ascii_char_replace_remove_once
        (([97, 45, 98] : List Byte).filter (fun c => c ≠ (45 : Byte)))
        [((45 : Byte), some REMOVAL_SENTINEL)]) ∧
    ascii_char_replace_remove_once [97, 45, 98]
        [((45 : Byte), some REMOVAL_SENTINEL)] = [97, 98] :=
  ⟨(claim_sentinel_replacement_ambiguity
      [((45 : Byte), some REMOVAL_SENTINEL)] 45 [97, 45, 98]
      (by decide) (by decide)).1,
    by decide⟩

/-- C5: Implicit NUL removal: with a non-empty rule set containing no rule
keyed on byte 0x00, the replace-or-remove transform still removes every
0x00 byte of the input (the identity-initialized entry for 0x00 equals the
removal sentinel): the result equals the result on the buffer with all
0x00 bytes removed beforehand, and 0x00 never appears in the output. -/
theorem claim_implicit_nul_removal (rules : CharModMap) (text : List Byte)
    (hne : rules ≠ []) (h0 : ∀ p ∈ rules, p.1 ≠ REMOVAL_SENTINEL) :
    ascii_char_replace_remove_once text rules =
      ascii_char_replace_remove_once
        (text.filter (fun c => c ≠ REMOVAL_SENTINEL)) rules ∧
    REMOVAL_SENTINEL ∉ ascii_char_replace_remove_once text rules := by
  have htb : (create_table_checked rules).1 REMOVAL_SENTINEL =
      REMOVAL_SENTINEL :=
    create_table_checked_not_mem rules REMOVAL_SENTINEL h0
  constructor
  · rw [once_eq_filterMap rules hne text, once_eq_filterMap rules hne
      (text.filter (fun c => c ≠ REMOVAL_SENTINEL))]
    exact (filterMap_filter_of_none _ REMOVAL_SENTINEL (by simp [htb])
      text).symm
  · intro hmem
    rw [once_eq_filterMap rules hne text] at hmem
    rcases List.mem_filterMap.mp hmem with ⟨a, _, hfa⟩
    by_cases hta : (create_table_checked rules).1 a = REMOVAL_SENTINEL
    · simp [hta] at hfa
    · simp only [hta, if_false] at hfa
      exact hta (Option.some.injEq .. ▸ hfa)

theorem claim_implicit_nul_removal_witness :
    (ascii_char_replace_remove_once [0, 97, 0] [((45 : Byte), some 33)] =
      ascii_char_replace_remove_once
        (([0, 97, 0] : List Byte).filter (fun c => c ≠ REMOVAL_SENTINEL))
        [((45 : Byte), some 33)]) ∧
    ascii_char_replace_remove_once [0, 97, 0] [((45 : Byte), some 33)] =
      [97] :=
  ⟨(claim_implicit_nul_removal [((45 : Byte), some 33)] [0, 97, 0]
      (by decide)
      (by
        intro p hp
        rcases List.mem_cons.mp hp with h1 | hp2
        · subst h1
          decide
        · cases hp2)).1,
    by decide⟩

/-- C6: Idempotence of trim: applying `trim_all` twice yields exactly the
same buffer contents as applying it once. -/
theorem claim_trim_idempotent (l : List Byte) :
    trim_all (trim_all l) = trim_all l := by
  rw [trim_all_eq_joinWords l, trim_all_eq_joinWords (joinWords (words l)),
    words_joinWords (words l) (words_good l.length l le_rfl)]

/-- C7: Length invariant: the replace-or-remove transform and the trim
transform never grow the buffer, and the pure-replacement transform leaves
the buffer's length exactly unchanged. -/
theorem claim_length_invariant :
    (∀ (text : List Byte) (lookup_table : LookupTable) (is_identity : Bool),
      (replace_and_remove text lookup_table is_identity).length ≤
        text.length) ∧
    (∀ (text : List Byte) (rules : CharModMap),
      (ascii_char_replace_remove_once text rules).length ≤ text.length) ∧
    (∀ text : List Byte, (trim_all text).length ≤ text.length) ∧
    (∀ (text : List Byte) (replacement_map : LookupTable),
      (replace_chars text replacement_map).length = text.length) ∧
    (∀ (text : List Byte) (replacements : ReplacementMap),
      (ascii_replace_once text replacements).length = text.length) := by
  refine ⟨replace_and_remove_length_le, ?_, trim_all_length_le,
    replace_chars_length, ?_⟩
  · intro text rules
    exact replace_and_remove_length_le text (create_table_checked rules).1
      (create_table_checked rules).2
  · intro text replacements
    unfold ascii_replace_once
    by_cases h : replacements.isEmpty = true
    · rw [if_pos h]
    · rw [if_neg h]
      exact replace_chars_length text (create_replacement_table replacements)

/-- C8: Pure-replacement positional fidelity: `replace_chars` preserves the
length and maps the byte at each position `i` to `table[input[i]]`, with no
reordering; the table built by `create_replacement_table` is the identity
overwritten by the map's entries, and a byte explicitly mapped to 0x00 is
written as 0x00, not removed. -/
theorem claim_pure_replacement_fidelity :
    (∀ (text : List Byte) (replacement_map : LookupTable),
      (replace_chars text replacement_map).length = text.length ∧
      ∀ i : Nat, (replace_chars text replacement_map)[i]? =
        (text[i]?).map replacement_map) ∧
    (∀ replacements : ReplacementMap, (replacements.map Prod.fst).Nodup →
      (∀ k v : Byte, (k, v) ∈ replacements →
        create_replacement_table replacements k = v) ∧
      (∀ b : Byte, (∀ p ∈ replacements, p.1 ≠ b) →
        create_replacement_table replacements b = b)) := by
  constructor
  · intro text replacement_map
    exact ⟨replace_chars_length text replacement_map,
      replace_chars_getElem text replacement_map⟩
  · intro replacements hnd
    constructor
    · intro k v h
      exact create_replacement_table_mem replacements k v h hnd
    · intro b h
      exact create_replacement_table_not_mem replacements b h

theorem claim_pure_replacement_fidelity_witness :
    create_replacement_table [((97 : Byte), REMOVAL_SENTINEL)] 97 =
      REMOVAL_SENTINEL ∧
    create_replacement_table [((97 : Byte), REMOVAL_SENTINEL)] 98 = 98 ∧
    replace_chars [97, 98]
        (create_replacement_table [((97 : Byte), REMOVAL_SENTINEL)]) =
      [REMOVAL_SENTINEL, 98] := by
  have h98 : ∀ p ∈ ([((97 : Byte), REMOVAL_SENTINEL)] : ReplacementMap),
      p.1 ≠ (98 : Byte) := by
    intro p hp
    rcases List.mem_cons.mp hp with h1 | hp2
    · subst h1
      decide
    · cases hp2
  have h := claim_pure_replacement_fidelity.2
    [((97 : Byte), REMOVAL_SENTINEL)] (by decide)
  exact ⟨h.1 97 REMOVAL_SENTINEL (by decide), h.2 98 h98, by decide⟩

/-- C9: Identity/empty fast path: the replace-or-remove transform with an
empty rule map, the pure-replacement transform with an empty replacement
map, any transform on an empty buffer, and the scan under the identity
flag, all leave the buffer byte-for-byte unchanged. -/
theorem claim_identity_fast_path :
    (∀ text : List Byte, ascii_char_replace_remove_once text [] = text) ∧
    (∀ text : List Byte, ascii_replace_once text [] = text) ∧
    (∀ (text : List Byte) (lookup_table : LookupTable),
      replace_and_remove text lookup_table true = text) ∧
    (∀ (lookup_table : LookupTable) (is_identity : Bool),
      replace_and_remove [] lookup_table is_identity = []) ∧
    (∀ replacement_map : LookupTable, replace_chars [] replacement_map = []) ∧
    trim_all [] = [] ∧
    (∀ text : List Byte, (ReusableASCIICharEditor.ofRules []).apply text =
      text) ∧
    (∀ text : List Byte, (ReusableCharReplacer.ofMap []).apply text = text) := by
  refine ⟨?_, ?_, ?_, ?_, ?_, rfl, ?_, ?_⟩
  · intro text
    simp [ascii_char_replace_remove_once, create_table_checked,
      replace_and_remove]
  · intro text
    rfl
  · intro text lookup_table
    simp [replace_and_remove]
  · intro lookup_table is_identity
    simp [replace_and_remove]
  · intro replacement_map
    rfl
  · intro text
    simp [ReusableASCIICharEditor.ofRules, ReusableASCIICharEditor.apply,
      create_table_checked, replace_and_remove]
  · intro text
    rfl

/-- C10: Reusable wrappers are equivalent to the one-shot functions: the
editor built from a rule map applies exactly as the one-shot
replace-or-remove, and the replacer built from a replacement map applies
exactly as the one-shot pure replacement, on every caller-supplied
buffer. -/
theorem claim_reusable_wrappers_equiv :
    (∀ (rules : CharModMap) (text : List Byte),
      (ReusableASCIICharEditor.ofRules rules).apply text =
        ascii_char_replace_remove_once text rules) ∧
    (∀ (replacements : ReplacementMap) (text : List Byte),
      (ReusableCharReplacer.ofMap replacements).apply text =
        ascii_replace_once text replacements) := by
  exact ⟨fun rules text => rfl, fun replacements text => rfl⟩
